import Mathlib

/-!
Shallow embedding of `src/atomichashmap.rs` (crate `atomics`): a fixed-capacity
hash table with `u64` keys and values, linear probing from a MurmurHash3-mixed
start index, and key `0` reserved as the empty sentinel.

Machine integers (`u64`, and `usize` on a 64-bit target) are modelled as `Nat`
with explicit `% 2 ^ 64` where the Rust code wraps.  The Rust loop header
`for index in start_index..(start_index + self.size)` performs a `usize`
addition whose overflow wraps in release builds (and panics under
overflow-checked builds); the wrapping result is what the embedding models,
so a wrapped (smaller) upper bound yields an empty iteration range, exactly
as Rust's `Range` does.  Atomic loads/stores/compare-and-swap are modelled by
their sequential (single-thread, no interference) semantics: a
`compare_and_swap(0, key)` that follows a load returning `0` observes the same
value `0` and therefore succeeds.

Panics (`assert!` on key `0`, overflow of the checked add, `panic!` in `new`)
are modelled by `Option`: `none` is an aborted call.
-/

/-- `U64` is the number of `u64` values; all wrapping arithmetic is mod this. -/
def U64 : Nat := 2 ^ 64

/-- Integer hash function from MurmurHash3's integer finalizer
(`hash_key` in `src/atomichashmap.rs`, lines 6-14).  Input is a `u64`
(a `Nat` below `2 ^ 64`); `wrapping_mul` is multiplication mod `2 ^ 64`. -/
def hash_key (val : Nat) : Nat :=
  let res := val ^^^ (val >>> 33)
  let res := (res * 0xff51afd7ed558ccd) % U64
  let res := res ^^^ (res >>> 33)
  let res := (res * 0xc4ceb9fe1a85ec53) % U64
  let res := res ^^^ (res >>> 33)
  res

/-- The table: two parallel arrays of `u64` (`keys`, `values`) and the
capacity `size` (`AtomicHashMap` in the source, lines 16-20). -/
structure AtomicHashMap where
  keys : List Nat
  values : List Nat
  size : Nat
  deriving DecidableEq, Repr

/-- The error enum (`AtomicHashMapError`, lines 25-28). -/
inductive AtomicHashMapError where
  | Full
  deriving DecidableEq, Repr

/-- The capacity check in `AtomicHashMap::new` (lines 34-40):
`for i in 1..64 { if size == 1 << i { good_size = true } }`. -/
def goodSize (size : Nat) : Bool :=
  (List.range' 1 63).any (fun i => size == 1 <<< i)

/-- `AtomicHashMap::new` (lines 33-61).  `none` models the
`panic!("Size of AtomicHashMap must be a power of two")`; on success both
arrays have length `size` and every slot is `0`. -/
def AtomicHashMap.new (size : Nat) : Option AtomicHashMap :=
  if goodSize size then
    some { keys := List.replicate size 0, values := List.replicate size 0, size := size }
  else
    none

/-- The probe index sequence of `insert` (lines 75-81): `start_index` is
`hash_key(key) as usize`, the loop runs over the `usize` range
`start_index..(start_index + self.size)` (the bound addition wraps mod
`2 ^ 64`; a wrapped bound below the start gives an empty range), and each
loop index is reduced by `index & (self.size - 1)`. -/
def probeIndices (size key : Nat) : List Nat :=
  let start_index := hash_key key
  let stop := (start_index + size) % U64
  (List.range' start_index (stop - start_index)).map (fun index => index &&& (size - 1))

/-- The probe index sequence of `get` (lines 110-116); the source text of the
loop header and masking is identical to the one in `insert`. -/
def getProbeIndices (size key : Nat) : List Nat :=
  let start_index := hash_key key
  let stop := (start_index + size) % U64
  (List.range' start_index (stop - start_index)).map (fun index => index &&& (size - 1))

/-- The body of `insert`'s probe loop (lines 78-103), sequentially: walk the
masked probe indices; at each slot load the key; a key equal to the target or
equal to `0` ends the probe (the single-thread `compare_and_swap(0, key)`
observes the `0` just loaded and succeeds, and its failure branch
`prev_key != 0 && prev_key != key` is unreachable), the value is stored and
the call returns `Ok`; any other key continues; an exhausted range returns
`Err(Full)`. -/
def insertLoop (ks vs : List Nat) (key new_value : Nat) :
    List Nat → Except AtomicHashMapError (List Nat × List Nat)
  | [] => .error .Full
  | index :: rest =>
    let curr_key := ks.getD index 0
    if curr_key ≠ key then
      if curr_key ≠ 0 then
        insertLoop ks vs key new_value rest
      else
        .ok (ks.set index key, vs.set index new_value)
    else
      .ok (ks, vs.set index new_value)

/-- `AtomicHashMap::insert` (lines 72-104).  `none` models the
`assert!(key != 0)` panic. -/
def AtomicHashMap.insert (m : AtomicHashMap) (key new_value : Nat) :
    Option (Except AtomicHashMapError AtomicHashMap) :=
  if key = 0 then none
  else
    match insertLoop m.keys m.values key new_value (probeIndices m.size key) with
    | .error e => some (.error e)
    | .ok (ks, vs) => some (.ok { keys := ks, values := vs, size := m.size })

/-- The body of `get`'s probe loop (lines 113-127), sequentially: walk the
masked probe indices; the first slot whose key equals the target yields its
value; an exhausted range returns `None`. -/
def getLoop (ks vs : List Nat) (key : Nat) : List Nat → Option Nat
  | [] => none
  | index :: rest =>
    if ks.getD index 0 ≠ key then
      getLoop ks vs key rest
    else
      some (vs.getD index 0)

/-- `AtomicHashMap::get` (lines 107-130).  `none` models the
`assert!(*key != 0)` panic; the inner `Option` is the Rust return value. -/
def AtomicHashMap.get (m : AtomicHashMap) (key : Nat) : Option (Option Nat) :=
  if key = 0 then none
  else some (getLoop m.keys m.values key (getProbeIndices m.size key))

/-- The counting loop of `len` (lines 134-145). -/
def lenLoop (ks vs : List Nat) : List Nat → Nat → Nat
  | [], count => count
  | index :: rest, count =>
    let key := ks.getD index 0
    let value := vs.getD index 0
    if key ≠ 0 ∧ value ≠ 0 then
      lenLoop ks vs rest (count + 1)
    else
      lenLoop ks vs rest count

/-- `AtomicHashMap::len` (lines 133-146): scan indices `0..size`. -/
def AtomicHashMap.len (m : AtomicHashMap) : Nat :=
  lenLoop m.keys m.values (List.range m.size) 0

/-- Sequentially insert a list of `(key, value)` pairs, succeeding only when
every single `insert` returns `Ok` (the shape of the spec's bulk-fill
scenarios). -/
def insertSeq (m : AtomicHashMap) : List (Nat × Nat) → Option AtomicHashMap
  | [] => some m
  | (k, v) :: rest =>
    match m.insert k v with
    | some (.ok m') => insertSeq m' rest
    | _ => none

/-- The unique `u64` whose `hash_key` image is `2 ^ 64 - 1` (the MurmurHash3
finalizer is invertible); for this key, `start_index + size` overflows
`usize` for every valid capacity. -/
def overflowKey : Nat := 9918480051203340458

/-- One xor-shift step of the finalizer, `x ^= x >> 33`. -/
def xorShift33 (x : Nat) : Nat := x ^^^ (x >>> 33)

example : hash_key overflowKey = U64 - 1 := by decide
example : hash_key 0 = 0 := by rfl
example : AtomicHashMap.new 4 =
    some { keys := [0, 0, 0, 0], values := [0, 0, 0, 0], size := 4 } := by rfl
example : AtomicHashMap.new 3 = none := by rfl
example : AtomicHashMap.new 1 = none := by rfl
example : probeIndices 2 overflowKey = [] := by rfl
example : (probeIndices 2 1).length = 2 := by decide

/-! ## Arithmetic helper lemmas -/

lemma shiftRight_lt_of_lt {x n : Nat} (h : x < U64) : x >>> n < U64 := by
  calc x >>> n ≤ x := by
        rw [Nat.shiftRight_eq_div_pow]; exact Nat.div_le_self _ _
    _ < U64 := h

lemma xorShift33_lt {x : Nat} (h : x < U64) : xorShift33 x < U64 :=
  Nat.xor_lt_two_pow h (shiftRight_lt_of_lt h)

lemma xorShift33_invol {x : Nat} (h : x < U64) : xorShift33 (xorShift33 x) = x := by
  have h66 : x >>> 66 = 0 := by
    rw [Nat.shiftRight_eq_div_pow]
    exact Nat.div_eq_of_lt (lt_of_lt_of_le h (by norm_num [U64]))
  have hdist : (x ^^^ (x >>> 33)) >>> 33 = (x >>> 33) ^^^ (x >>> 66) := by
    apply Nat.eq_of_testBit_eq
    intro i
    have h33 : 33 + (33 + i) = 66 + i := by omega
    simp [Nat.testBit_shiftRight, Nat.testBit_xor, h33]
  unfold xorShift33
  rw [hdist, h66, Nat.xor_zero, Nat.xor_cancel_right]

lemma xorShift33_inj {x y : Nat} (hx : x < U64) (hy : y < U64)
    (h : xorShift33 x = xorShift33 y) : x = y := by
  have := congrArg xorShift33 h
  rwa [xorShift33_invol hx, xorShift33_invol hy] at this

lemma mul_odd_mod_inj {c x y : Nat} (hc : c % 2 = 1) (hx : x < U64) (hy : y < U64)
    (h : (x * c) % U64 = (y * c) % U64) : x = y := by
  have hx' : x < 2 ^ 64 := hx
  have hy' : y < 2 ^ 64 := hy
  have hco : Nat.Coprime (2 ^ 64) c :=
    (Nat.coprime_pow_left_iff (by norm_num) 2 c).mpr
      (Nat.coprime_two_left.mpr (Nat.odd_iff.mpr hc))
  have h' : x * c ≡ y * c [MOD 2 ^ 64] := h
  have h2 : x ≡ y [MOD 2 ^ 64] := Nat.ModEq.cancel_right_of_coprime hco h'
  have h3 : x % 2 ^ 64 = y % 2 ^ 64 := h2
  rwa [Nat.mod_eq_of_lt hx', Nat.mod_eq_of_lt hy'] at h3

lemma mod_U64_lt (x : Nat) : x % U64 < U64 := Nat.mod_lt _ (by norm_num [U64])

/-- `hash_key` is the three xor-shift steps interleaved with the two odd
multiplications, written as a composition. -/
lemma hash_key_eq (val : Nat) :
    hash_key val =
      xorShift33 ((xorShift33 ((xorShift33 val * 0xff51afd7ed558ccd) % U64)
        * 0xc4ceb9fe1a85ec53) % U64) := rfl

/-- `hash_key` always lands in `u64`: the last xor-shift acts on a value
already reduced mod `2 ^ 64`. -/
lemma hash_key_lt (val : Nat) : hash_key val < U64 := by
  rw [hash_key_eq]
  exact xorShift33_lt (mod_U64_lt _)

/-- C10: the mixing function `hash_key` is injective on 64-bit integers:
each xor-shift step is an involution on `u64` and each multiplication by an
odd constant is invertible mod `2 ^ 64`, so `hash_key a = hash_key b`
forces `a = b`. -/
theorem hash_key_injective (a b : Nat) (ha : a < U64) (hb : b < U64)
    (h : hash_key a = hash_key b) : a = b := by
  rw [hash_key_eq, hash_key_eq] at h
  have h3 := xorShift33_inj (mod_U64_lt _) (mod_U64_lt _) h
  have h2 := mul_odd_mod_inj (by norm_num) (xorShift33_lt (mod_U64_lt _))
    (xorShift33_lt (mod_U64_lt _)) h3
  have h1 := xorShift33_inj (mod_U64_lt _) (mod_U64_lt _) h2
  have h0 := mul_odd_mod_inj (by norm_num) (xorShift33_lt ha) (xorShift33_lt hb) h1
  exact xorShift33_inj ha hb h0

/-- Witness for `hash_key_injective` at concrete inputs. -/
theorem hash_key_injective_witness : (3 : Nat) = 3 :=
  hash_key_injective 3 3 (by norm_num [U64]) (by norm_num [U64]) rfl

/-! ## List helper lemmas -/

lemma getD_set_self {l : List Nat} {i a d : Nat} (h : i < l.length) :
    (l.set i a).getD i d = a := by
  simp [List.getD, List.getElem?_set, h]

lemma getD_set_ne {l : List Nat} {i j a d : Nat} (h : i ≠ j) :
    (l.set i a).getD j d = l.getD j d := by
  simp [List.getD, List.getElem?_set, h]

lemma find?_append_some {p : Nat → Bool} {L1 L2 : List Nat} {i : Nat}
    (h1 : ∀ j ∈ L1, ¬ p j) (h2 : p i) : List.find? p (L1 ++ i :: L2) = some i := by
  have hn : List.find? p L1 = none := List.find?_eq_none.mpr h1
  rw [List.find?_append, hn, List.find?_cons_of_pos _ h2]
  rfl

lemma find?_decomp {p : Nat → Bool} {L : List Nat} {i : Nat}
    (h : List.find? p L = some i) :
    ∃ L1 L2, L = L1 ++ i :: L2 ∧ (∀ j ∈ L1, ¬ p j) ∧ p i := by
  induction L with
  | nil => simp [List.find?] at h
  | cons a rest ih =>
    by_cases hp : p a
    · rw [List.find?_cons_of_pos _ hp] at h
      obtain rfl : a = i := by injection h
      exact ⟨[], rest, rfl, by simp, hp⟩
    · rw [List.find?_cons_of_neg _ hp] at h
      obtain ⟨L1, L2, hL, hL1, hpi⟩ := ih h
      refine ⟨a :: L1, L2, by rw [hL, List.cons_append], ?_, hpi⟩
      intro j hj
      rcases List.mem_cons.mp hj with rfl | hj
      · exact hp
      · exact hL1 j hj

/-! ## Probe-loop characterizations -/

/-- `insertLoop` settles at the first probed slot whose key is the target or
`0`: a matching slot keeps the key array, an empty slot is claimed, and in
either case the value is stored there; with no such slot it returns `Full`. -/
lemma insertLoop_eq (ks vs : List Nat) (key v : Nat) (L : List Nat) :
    insertLoop ks vs key v L =
      match L.find? (fun i => ks.getD i 0 == key || ks.getD i 0 == 0) with
      | none => .error .Full
      | some i =>
        if ks.getD i 0 = key then .ok (ks, vs.set i v)
        else .ok (ks.set i key, vs.set i v) := by
  induction L with
  | nil => rfl
  | cons i rest ih =>
    by_cases h1 : ks[i]?.getD 0 = key
    · simp [insertLoop, List.find?_cons, List.getD, h1]
    · by_cases h2 : ks[i]?.getD 0 = 0
      · simp [insertLoop, List.find?_cons, List.getD, h1, h2]
      · simp [insertLoop, List.find?_cons, List.getD, h1, h2, ih]

/-- `getLoop` returns the value of the first probed slot holding the key. -/
lemma getLoop_eq (ks vs : List Nat) (key : Nat) (L : List Nat) :
    getLoop ks vs key L =
      (L.find? (fun i => ks.getD i 0 == key)).map (fun i => vs.getD i 0) := by
  induction L with
  | nil => rfl
  | cons i rest ih =>
    by_cases h : ks[i]?.getD 0 = key
    · simp [getLoop, List.find?_cons, List.getD, h]
    · simp [getLoop, List.find?_cons, List.getD, h, ih]

/-- `insertLoop` fails exactly when every probed slot holds a key that is
neither the target nor `0`. -/
lemma insertLoop_error_iff (ks vs : List Nat) (key v : Nat) (L : List Nat) :
    insertLoop ks vs key v L = .error .Full ↔
      ∀ j ∈ L, ks.getD j 0 ≠ key ∧ ks.getD j 0 ≠ 0 := by
  rw [insertLoop_eq]
  cases hf : L.find? (fun i => ks.getD i 0 == key || ks.getD i 0 == 0) with
  | none =>
    simp only [List.find?_eq_none, Bool.or_eq_true, beq_iff_eq, not_or] at hf
    simpa using hf
  | some i =>
    have hmem := List.mem_of_find?_eq_some hf
    have hp := List.find?_some hf
    simp only [Bool.or_eq_true, beq_iff_eq] at hp
    constructor
    · intro h
      by_cases hik : ks[i]?.getD 0 = key <;> simp [List.getD, hik] at h
    · intro h
      exact absurd hp (by simpa using h i hmem)

/-! ## Probe-sequence structure -/

/-- `get` probes the identical index sequence as `insert`: the two loop
headers are the same expression of `size` and `key`. -/
lemma getProbeIndices_eq : getProbeIndices = probeIndices := rfl

/-- The probe sequence never has more than `size` entries. -/
lemma probeIndices_length_le (size key : Nat) : (probeIndices size key).length ≤ size := by
  unfold probeIndices
  simp only [List.length_map, List.length_range']
  have h := Nat.mod_le (hash_key key + size) U64
  omega

/-- Every probed index is in bounds (and the probe list is only nonempty for
positive `size`). -/
lemma mem_probeIndices_lt {size key i : Nat} (h : i ∈ probeIndices size key) : i < size := by
  simp only [probeIndices, List.mem_map] at h
  obtain ⟨x, hx, rfl⟩ := h
  rcases Nat.eq_zero_or_pos size with hz | hpos
  · subst hz
    rw [Nat.add_zero, Nat.mod_eq_of_lt (hash_key_lt key), Nat.sub_self] at hx
    simp at hx
  · have h1 : x &&& (size - 1) ≤ size - 1 := Nat.and_le_right
    omega

/-- When `hash_key key + size` does not overflow a `usize`, the probe
sequence for a power-of-two capacity is the `size` successive residues
starting at `hash_key key mod size`. -/
lemma probeIndices_no_overflow {n key : Nat} (hno : hash_key key + 2 ^ n < U64) :
    probeIndices (2 ^ n) key =
      (List.range (2 ^ n)).map (fun j => (hash_key key + j) % 2 ^ n) := by
  simp only [probeIndices]
  rw [Nat.mod_eq_of_lt hno, Nat.add_sub_cancel_left, List.range'_eq_map_range,
    List.map_map]
  apply List.map_congr_left
  intro j _
  simp only [Function.comp_apply]
  exact Nat.and_pow_two_sub_one_eq_mod _ n

/-- `size` consecutive values hit every residue mod `size`: existence. -/
lemma exists_add_mod {C s r : Nat} (hr : r < C) : ∃ j, j < C ∧ (s + j) % C = r := by
  have hC : 0 < C := Nat.pos_of_ne_zero (by omega)
  have hs := Nat.div_add_mod s C
  have hsm : s % C < C := Nat.mod_lt _ hC
  by_cases h : s % C ≤ r
  · refine ⟨r - s % C, by omega, ?_⟩
    have heq : s + (r - s % C) = C * (s / C) + r := by omega
    rw [heq, Nat.mul_add_mod, Nat.mod_eq_of_lt hr]
  · refine ⟨C + r - s % C, by omega, ?_⟩
    have heq : s + (C + r - s % C) = C * (s / C) + (C + r) := by omega
    rw [heq, Nat.mul_add_mod, Nat.add_mod_left, Nat.mod_eq_of_lt hr]

/-- Under no overflow, the probe sequence visits every slot index. -/
lemma mem_probeIndices_of_lt {n key r : Nat} (hno : hash_key key + 2 ^ n < U64)
    (hr : r < 2 ^ n) : r ∈ probeIndices (2 ^ n) key := by
  rw [probeIndices_no_overflow hno]
  simp only [List.mem_map, List.mem_range]
  obtain ⟨j, hj, hjr⟩ := exists_add_mod (s := hash_key key) hr
  exact ⟨j, hj, hjr⟩

/-- Under no overflow, the probe sequence has no repeated index. -/
lemma probeIndices_nodup {n key : Nat} (hno : hash_key key + 2 ^ n < U64) :
    (probeIndices (2 ^ n) key).Nodup := by
  rw [probeIndices_no_overflow hno]
  refine List.Nodup.map_on ?_ (List.nodup_range _)
  intro j1 h1 j2 h2 heq
  simp only [List.mem_range] at h1 h2
  have hmod : j1 ≡ j2 [MOD 2 ^ n] :=
    Nat.ModEq.add_left_cancel' (hash_key key) heq
  have h3 : j1 % 2 ^ n = j2 % 2 ^ n := hmod
  rwa [Nat.mod_eq_of_lt h1, Nat.mod_eq_of_lt h2] at h3

/-- Under no overflow, the probe sequence has exactly `size` entries. -/
lemma probeIndices_length {n key : Nat} (hno : hash_key key + 2 ^ n < U64) :
    (probeIndices (2 ^ n) key).length = 2 ^ n := by
  rw [probeIndices_no_overflow hno]
  simp

/-! ## Insert/get interaction -/

/-- The table a caller observes after `insert` returns: the updated table on
`Ok`, the untouched table on `Err` (in Rust the mutation happens in place;
an erroring probe never wrote anything). -/
def resultTable (m : AtomicHashMap) (r : Except AtomicHashMapError AtomicHashMap) :
    AtomicHashMap :=
  match r with
  | .ok m' => m'
  | .error _ => m

/-- A successful `insert` dissected: the probe list splits around a first
slot `i` whose key is the target or `0`; before `i` every probed slot holds
some other nonzero key (in the old and the new table alike); afterwards
slot `i` holds the key and the new value, everything else is unchanged. -/
lemma insert_ok_elim {m : AtomicHashMap} {k v : Nat} {m' : AtomicHashMap}
    (hk : k ≠ 0) (hkl : m.keys.length = m.size)
    (h : m.insert k v = some (.ok m')) :
    ∃ L1 i L2, probeIndices m.size k = L1 ++ i :: L2 ∧ i < m.size ∧
      (∀ j ∈ L1, m.keys.getD j 0 ≠ k ∧ m.keys.getD j 0 ≠ 0) ∧
      (∀ j ∈ L1, m'.keys.getD j 0 ≠ k ∧ m'.keys.getD j 0 ≠ 0) ∧
      m'.keys.getD i 0 = k ∧
      ((m.keys.getD i 0 = k ∧ m'.keys = m.keys) ∨
        (m.keys.getD i 0 = 0 ∧ m'.keys = m.keys.set i k)) ∧
      m'.values = m.values.set i v ∧ m'.size = m.size := by
  unfold AtomicHashMap.insert at h
  rw [if_neg hk, insertLoop_eq] at h
  cases hf : (probeIndices m.size k).find?
      (fun i => m.keys.getD i 0 == k || m.keys.getD i 0 == 0) with
  | none =>
    simp only [hf] at h
    exact absurd h (by simp)
  | some i =>
    simp only [hf] at h
    have hi : i < m.size := mem_probeIndices_lt (List.mem_of_find?_eq_some hf)
    obtain ⟨L1, L2, hL, hL1, hpi⟩ := find?_decomp hf
    have hL1' : ∀ j ∈ L1, m.keys.getD j 0 ≠ k ∧ m.keys.getD j 0 ≠ 0 := by
      intro j hj
      have := hL1 j hj
      simpa using this
    simp only [Bool.or_eq_true, beq_iff_eq] at hpi
    by_cases hik : m.keys.getD i 0 = k
    · rw [if_pos hik] at h
      simp only [Option.some.injEq, Except.ok.injEq] at h
      subst h
      exact ⟨L1, i, L2, hL, hi, hL1', hL1', hik, Or.inl ⟨hik, rfl⟩, rfl, rfl⟩
    · have hi0 : m.keys.getD i 0 = 0 := hpi.resolve_left hik
      rw [if_neg hik] at h
      simp only [Option.some.injEq, Except.ok.injEq] at h
      subst h
      refine ⟨L1, i, L2, hL, hi, hL1', ?_, ?_, Or.inr ⟨hi0, rfl⟩, rfl, rfl⟩
      · intro j hj
        have hj1 := hL1' j hj
        have hne : i ≠ j := by
          intro hij
          rw [← hij] at hj1
          exact hj1.2 hi0
        rw [getD_set_ne hne]
        exact hj1
      · exact getD_set_self (by rw [hkl]; exact hi)

/-- The first matching slot of the updated table is the slot `insert` used:
before it every probed slot holds another nonzero key. -/
lemma find?_first_match {ks : List Nat} {k i : Nat} {L1 L2 : List Nat}
    (hpre : ∀ j ∈ L1, ks.getD j 0 ≠ k ∧ ks.getD j 0 ≠ 0)
    (hi : ks.getD i 0 = k) :
    (L1 ++ i :: L2).find? (fun j => ks.getD j 0 == k) = some i ∧
      (L1 ++ i :: L2).find? (fun j => ks.getD j 0 == k || ks.getD j 0 == 0) = some i := by
  constructor
  · apply find?_append_some
    · intro j hj
      simpa using (hpre j hj).1
    · simpa using hi
  · apply find?_append_some
    · intro j hj
      simpa using And.intro (hpre j hj).1 (hpre j hj).2
    · simpa using Or.inl hi

/-- C1: on a single thread, a successful `insert(k, v)` with nonzero `k` is
immediately visible: `get(k)` walks the same probe sequence, every slot
before the one `insert` used still holds a different nonzero key, and that
slot now holds `k` with value `v`. -/
theorem insert_then_get (m : AtomicHashMap) (k v : Nat) (m' : AtomicHashMap)
    (hk : k ≠ 0) (hkl : m.keys.length = m.size) (hvl : m.values.length = m.size)
    (h : m.insert k v = some (Except.ok m')) :
    m'.get k = some (some v) := by
  obtain ⟨L1, i, L2, hL, hi, _, hpre', hki, _, hvals, hsize⟩ := insert_ok_elim hk hkl h
  unfold AtomicHashMap.get
  rw [if_neg hk, getLoop_eq]
  have hpl : getProbeIndices m'.size k = L1 ++ i :: L2 := by
    rw [getProbeIndices_eq, hsize, hL]
  rw [hpl, (find?_first_match hpre' hki).1, hvals]
  have hiv : i < m.values.length := by rw [hvl]; exact hi
  simp only [Option.map_some', getD_set_self hiv]

/-- Witness for `insert_then_get`: inserting key 1, value 5 into a fresh
capacity-2 table and reading it back. -/
theorem insert_then_get_witness :
    AtomicHashMap.get ⟨[1, 0], [5, 0], 2⟩ 1 = some (some 5) :=
  insert_then_get ⟨[0, 0], [0, 0], 2⟩ 1 5 ⟨[1, 0], [5, 0], 2⟩
    (by decide) (by decide) (by decide) (by rfl)

/-- C9: sequential last-write-wins: after a successful `insert(k, v1)`,
re-inserting `k` with `v2` succeeds, rewrites the same slot's value in place
(the key array is untouched), and `get(k)` then returns `v2`. -/
theorem insert_insert_last_wins (m : AtomicHashMap) (k v1 v2 : Nat) (m1 : AtomicHashMap)
    (hk : k ≠ 0) (hkl : m.keys.length = m.size) (hvl : m.values.length = m.size)
    (h1 : m.insert k v1 = some (Except.ok m1)) :
    ∃ m2, m1.insert k v2 = some (Except.ok m2) ∧ m2.keys = m1.keys ∧
      m2.size = m1.size ∧ m2.get k = some (some v2) := by
  obtain ⟨L1, i, L2, hL, hi, _, hpre', hki, _, hvals, hsize⟩ := insert_ok_elim hk hkl h1
  have hpl : probeIndices m1.size k = L1 ++ i :: L2 := by rw [hsize, hL]
  have hiv : i < m1.values.length := by
    rw [hvals]
    simp only [List.length_set]
    rw [hvl]
    exact hi
  refine ⟨⟨m1.keys, m1.values.set i v2, m1.size⟩, ?_, rfl, rfl, ?_⟩
  · unfold AtomicHashMap.insert
    rw [if_neg hk, insertLoop_eq, hpl, (find?_first_match hpre' hki).2]
    have hki' : m1.keys[i]?.getD 0 = k := by simpa using hki
    simp [hki']
  · unfold AtomicHashMap.get
    rw [if_neg hk]
    show some (getLoop m1.keys (m1.values.set i v2) k (getProbeIndices m1.size k)) =
      some (some v2)
    rw [getLoop_eq, getProbeIndices_eq, hpl, (find?_first_match hpre' hki).1]
    simp only [Option.map_some', getD_set_self hiv]

/-- Witness for `insert_insert_last_wins`: key 1 inserted with 5 then 9 in a
capacity-2 table. -/
theorem insert_insert_last_wins_witness :
    ∃ m2, AtomicHashMap.insert ⟨[1, 0], [5, 0], 2⟩ 1 9 = some (Except.ok m2) ∧
      m2.keys = [1, 0] ∧ m2.size = 2 ∧ m2.get 1 = some (some 9) :=
  insert_insert_last_wins ⟨[0, 0], [0, 0], 2⟩ 1 5 9 ⟨[1, 0], [5, 0], 2⟩
    (by decide) (by decide) (by decide) (by rfl)

/-- C7: a slot whose key field is nonzero keeps that same key across any
`insert` call (successful or `Full`): `insert` writes a key only through the
compare-and-swap from `0`, so it never rewrites, clears, or relocates an
already-claimed slot (`get` and `len` perform no writes at all in the
source, which the purely functional embedding reflects). -/
theorem insert_preserves_claimed_slots (m : AtomicHashMap) (k v : Nat)
    (r : Except AtomicHashMapError AtomicHashMap)
    (h : m.insert k v = some r) (i : Nat) (hnz : m.keys.getD i 0 ≠ 0) :
    (resultTable m r).keys.getD i 0 = m.keys.getD i 0 := by
  unfold AtomicHashMap.insert at h
  by_cases hk : k = 0
  · rw [if_pos hk] at h
    exact absurd h (by simp)
  · rw [if_neg hk, insertLoop_eq] at h
    cases hf : (probeIndices m.size k).find?
        (fun j => m.keys.getD j 0 == k || m.keys.getD j 0 == 0) with
    | none =>
      simp only [hf] at h
      obtain rfl := Option.some.inj h
      rfl
    | some i0 =>
      simp only [hf] at h
      have hpi := List.find?_some hf
      simp only [Bool.or_eq_true, beq_iff_eq] at hpi
      by_cases hik : m.keys.getD i0 0 = k
      · rw [if_pos hik] at h
        obtain rfl := Option.some.inj h
        rfl
      · have hi0 : m.keys.getD i0 0 = 0 := hpi.resolve_left hik
        rw [if_neg hik] at h
        obtain rfl := Option.some.inj h
        show (m.keys.set i0 k).getD i 0 = m.keys.getD i 0
        apply getD_set_ne
        intro he
        rw [he] at hi0
        exact hnz hi0

/-- Witness for `insert_preserves_claimed_slots`: slot 0 already holds key 1;
inserting key 2 claims slot 1 and leaves slot 0 intact. -/
theorem insert_preserves_claimed_slots_witness :
    (resultTable ⟨[1, 0], [5, 0], 2⟩ (Except.ok ⟨[1, 2], [5, 7], 2⟩)).keys.getD 0 0 =
      (AtomicHashMap.mk [1, 0] [5, 0] 2).keys.getD 0 0 :=
  insert_preserves_claimed_slots ⟨[1, 0], [5, 0], 2⟩ 2 7 (Except.ok ⟨[1, 2], [5, 7], 2⟩)
    (by rfl) 0 (by decide)

/-! ## Construction -/

/-- The `new` capacity check accepts exactly the powers `2 ^ n`, `1 ≤ n ≤ 63`. -/
lemma goodSize_iff (c : Nat) : goodSize c = true ↔ ∃ n, 1 ≤ n ∧ n ≤ 63 ∧ c = 2 ^ n := by
  unfold goodSize
  simp only [List.any_eq_true, List.mem_range'_1, beq_iff_eq, Nat.shiftLeft_eq, one_mul]
  constructor
  · rintro ⟨i, ⟨h1, h2⟩, rfl⟩
    exact ⟨i, h1, by omega, rfl⟩
  · rintro ⟨n, h1, h2, rfl⟩
    exact ⟨n, ⟨h1, by omega⟩, rfl⟩

/-- C3: `new(capacity)` succeeds exactly for capacities `2 ^ n` with
`n ∈ [1, 63]` (so `0` and `1` are fatal), and on success both arrays have
length `capacity` with every slot key `0` and value `0`. -/
theorem new_spec (c : Nat) :
    ((AtomicHashMap.new c).isSome ↔ ∃ n, 1 ≤ n ∧ n ≤ 63 ∧ c = 2 ^ n) ∧
      ∀ m, AtomicHashMap.new c = some m →
        m.keys = List.replicate c 0 ∧ m.values = List.replicate c 0 ∧ m.size = c ∧
          m.keys.length = c ∧ m.values.length = c := by
  constructor
  · rw [← goodSize_iff]
    unfold AtomicHashMap.new
    by_cases hg : goodSize c <;> simp [hg]
  · intro m hm
    unfold AtomicHashMap.new at hm
    by_cases hg : goodSize c
    · rw [if_pos hg] at hm
      obtain rfl := Option.some.inj hm
      simp
    · rw [if_neg hg] at hm
      exact absurd hm (by simp)

/-- Witness for `new_spec`: capacity 4 = 2 ^ 2 is accepted. -/
theorem new_spec_witness : (AtomicHashMap.new 4).isSome :=
  (new_spec 4).1.mpr ⟨2, by norm_num⟩

/-! ## Len -/

/-- The counting loop adds one per scanned index whose key and value are both
nonzero. -/
lemma lenLoop_eq (ks vs : List Nat) (L : List Nat) (count : Nat) :
    lenLoop ks vs L count =
      count + (L.filter (fun i => decide (ks.getD i 0 ≠ 0 ∧ vs.getD i 0 ≠ 0))).length := by
  induction L generalizing count with
  | nil => simp [lenLoop]
  | cons i rest ih =>
    simp only [lenLoop]
    by_cases h : ks.getD i 0 ≠ 0 ∧ vs.getD i 0 ≠ 0
    · rw [if_pos h, ih, List.filter_cons_of_pos (by simpa using h)]
      simp only [List.length_cons]
      omega
    · rw [if_neg h, ih, List.filter_cons_of_neg (by simpa using h)]

/-- C8: `len` scans all `capacity` slots and returns exactly the number of
slots whose key field and value field are both nonzero; consequently a key
freshly stored with value `0` by a successful `insert` is invisible to the
count (`len` is unchanged by that insert). -/
theorem len_spec (m : AtomicHashMap) (k : Nat) (m' : AtomicHashMap)
    (hk : k ≠ 0) (hkl : m.keys.length = m.size) (hvl : m.values.length = m.size)
    (hfresh : ∀ i, i < m.size → m.keys.getD i 0 ≠ k)
    (h : m.insert k 0 = some (Except.ok m')) :
    (∀ mm : AtomicHashMap,
        mm.len = ((List.range mm.size).filter
          (fun i => decide (mm.keys.getD i 0 ≠ 0 ∧ mm.values.getD i 0 ≠ 0))).length) ∧
      m'.len = m.len := by
  have hlen : ∀ mm : AtomicHashMap,
      mm.len = ((List.range mm.size).filter
        (fun i => decide (mm.keys.getD i 0 ≠ 0 ∧ mm.values.getD i 0 ≠ 0))).length := by
    intro mm
    unfold AtomicHashMap.len
    rw [lenLoop_eq]
    exact Nat.zero_add _
  refine ⟨hlen, ?_⟩
  obtain ⟨L1, i, L2, hL, hi, _, _, hki, hcase, hvals, hsize⟩ := insert_ok_elim hk hkl h
  have hizero : m.keys.getD i 0 = 0 := by
    rcases hcase with ⟨hmatch, _⟩ | ⟨hzero, _⟩
    · exact absurd hmatch (hfresh i hi)
    · exact hzero
  have hkeys : m'.keys = m.keys.set i k := by
    rcases hcase with ⟨hmatch, _⟩ | ⟨_, hset⟩
    · exact absurd hmatch (hfresh i hi)
    · exact hset
  rw [hlen m', hlen m, hsize]
  congr 1
  apply List.filter_congr
  intro j hj
  by_cases hij : i = j
  · subst hij
    have hv0 : m'.values[i]?.getD 0 = 0 := by
      rw [hvals]
      simpa using getD_set_self (d := 0) (a := 0) (by rw [hvl]; exact hi)
    have hiz : m.keys[i]?.getD 0 = 0 := by simpa using hizero
    simp [hv0, hiz]
  · have hk' : m'.keys[j]?.getD 0 = m.keys[j]?.getD 0 := by
      rw [hkeys]
      simpa using getD_set_ne (l := m.keys) (a := k) (d := 0) hij
    have hv' : m'.values[j]?.getD 0 = m.values[j]?.getD 0 := by
      rw [hvals]
      simpa using getD_set_ne (l := m.values) (a := 0) (d := 0) hij
    simp [hk', hv']

/-- Witness for `len_spec`: storing key 2 with value 0 beside an existing
entry leaves the count at 1. -/
theorem len_spec_witness :
    AtomicHashMap.len ⟨[1, 2], [5, 0], 2⟩ = AtomicHashMap.len ⟨[1, 0], [5, 0], 2⟩ :=
  (len_spec ⟨[1, 0], [5, 0], 2⟩ 2 ⟨[1, 2], [5, 0], 2⟩ (by decide) (by decide) (by decide)
    (by decide) (by rfl)).2

/-! ## The probe-range overflow

`hash_key overflowKey = 2 ^ 64 - 1`, so the loop bound
`start_index + self.size` exceeds the largest `usize` for every valid
capacity: with wrapping arithmetic the probe range is empty and no slot is
ever examined (with checked arithmetic the addition itself panics). -/

/-- C5: for `overflowKey` the loop-bound addition `start_index + size`
leaves `u64` range, and the resulting (wrapped) probe range of a capacity-2
table is empty for `insert` and `get` alike: the call never probes a slot,
contradicting the claim that the index arithmetic is harmless for every
key. -/
theorem probe_range_bound_overflows :
    U64 ≤ hash_key overflowKey + 2 ∧ probeIndices 2 overflowKey = [] ∧
      getProbeIndices 2 overflowKey = [] :=
  ⟨by decide, by rfl, by rfl⟩

/-- C4: the probe sequence for `overflowKey` on a valid capacity-2 table
visits 0 indices instead of the claimed `capacity` distinct indices (the
`get` sequence is the same — also empty). -/
theorem probe_visits_no_index_for_overflow_key :
    overflowKey ≠ 0 ∧ goodSize 2 = true ∧ (probeIndices 2 overflowKey).length = 0 ∧
      getProbeIndices 2 overflowKey = probeIndices 2 overflowKey :=
  ⟨by decide, by rfl, by rfl, rfl⟩

/-- C2: inserting `overflowKey` into a freshly constructed capacity-2 table
returns `Full` even though every slot is empty (key `0`), contradicting the
claimed exact `Full` condition. -/
theorem insert_full_on_empty_table :
    AtomicHashMap.new 2 = some ⟨List.replicate 2 0, List.replicate 2 0, 2⟩ ∧
      overflowKey ≠ 0 ∧
      (AtomicHashMap.mk (List.replicate 2 0) (List.replicate 2 0) 2).keys.getD 0 0 = 0 ∧
      AtomicHashMap.insert ⟨List.replicate 2 0, List.replicate 2 0, 2⟩ overflowKey 5 =
        some (Except.error AtomicHashMapError.Full) :=
  ⟨by rfl, by decide, by rfl, by rfl⟩

/-- C6: filling a fresh capacity-2 table with the 2 distinct nonzero keys
`overflowKey` and `1` (nonzero values) does not succeed: the very first
insert returns `Full` with the whole table still empty. -/
theorem insertSeq_full_below_capacity :
    overflowKey ≠ 0 ∧ overflowKey ≠ 1 ∧ (1 : Nat) ≠ 0 ∧
      insertSeq ⟨List.replicate 2 0, List.replicate 2 0, 2⟩ [(overflowKey, 3), (1, 4)] =
        none ∧
      AtomicHashMap.insert ⟨List.replicate 2 0, List.replicate 2 0, 2⟩ overflowKey 3 =
        some (Except.error AtomicHashMapError.Full) :=
  ⟨by decide, by decide, by decide, by rfl, by rfl⟩

/-! ## The exact behavior for non-overflowing keys

The lemmas below document the intended behavior the spec describes, which
the code does implement for every key whose `hash_key` stays below
`2 ^ 64 - capacity` (all keys except the `capacity - 1` whose probe-range
bound overflows). -/

/-- For a nonzero key, `insert` always returns (`Ok` or `Full`), never
panics. -/
lemma insert_total (m : AtomicHashMap) (k v : Nat) (hk : k ≠ 0) :
    ∃ r, m.insert k v = some r ∧
      (r = .error .Full ∨ ∃ m', r = .ok m') := by
  unfold AtomicHashMap.insert
  rw [if_neg hk]
  cases hloop : insertLoop m.keys m.values k v (probeIndices m.size k) with
  | error e =>
    cases e
    exact ⟨.error .Full, by simp [hloop], Or.inl rfl⟩
  | ok p =>
    obtain ⟨ks', vs'⟩ := p
    exact ⟨.ok ⟨ks', vs', m.size⟩, by simp [hloop], Or.inr ⟨_, rfl⟩⟩

/-- For a power-of-two capacity and a key whose probe-range bound does not
overflow, `insert` returns `Full` exactly when every slot holds a nonzero
key different from the target — the condition C2 claims for all keys. -/
lemma insert_full_iff {n : Nat} (m : AtomicHashMap) (k v : Nat)
    (hk : k ≠ 0) (hsize : m.size = 2 ^ n) (hno : hash_key k + m.size < U64) :
    m.insert k v = some (Except.error AtomicHashMapError.Full) ↔
      ∀ i, i < m.size → m.keys.getD i 0 ≠ k ∧ m.keys.getD i 0 ≠ 0 := by
  unfold AtomicHashMap.insert
  rw [if_neg hk]
  constructor
  · intro h
    cases hloop : insertLoop m.keys m.values k v (probeIndices m.size k) with
    | ok p =>
      obtain ⟨ks', vs'⟩ := p
      simp only [hloop] at h
      exact absurd h (by simp)
    | error e =>
      have hforall := (insertLoop_error_iff m.keys m.values k v _).mp (by cases e; exact hloop)
      intro i hi
      have hno' : hash_key k + 2 ^ n < U64 := by rwa [hsize] at hno
      have hi' : i < 2 ^ n := by rwa [hsize] at hi
      have hmem : i ∈ probeIndices (2 ^ n) k := mem_probeIndices_of_lt hno' hi'
      rw [← hsize] at hmem
      exact hforall i hmem
  · intro hall
    have hloop : insertLoop m.keys m.values k v (probeIndices m.size k) = .error .Full :=
      (insertLoop_error_iff m.keys m.values k v _).mpr
        (fun j hj => hall j (mem_probeIndices_lt hj))
    simp [hloop]

/-- Flipping a single element of a duplicate-free list from failing to
satisfying a predicate grows the filtered length by one. -/
lemma filter_length_flip (p q : Nat → Bool) (i : Nat) (hp : p i = false) (hq : q i = true) :
    ∀ L : List Nat, L.Nodup → i ∈ L → (∀ j ∈ L, j ≠ i → q j = p j) →
      (L.filter q).length = (L.filter p).length + 1 := by
  intro L
  induction L with
  | nil =>
    intro _ hi _
    cases hi
  | cons a rest ih =>
    intro hnd hi hagree
    rcases List.mem_cons.mp hi with rfl | hi'
    · have hrest : rest.filter q = rest.filter p := by
        apply List.filter_congr
        intro j hj
        exact hagree j (List.mem_cons_of_mem _ hj)
          (fun he => (List.nodup_cons.mp hnd).1 (he ▸ hj))
      rw [List.filter_cons_of_pos hq, List.filter_cons_of_neg (by simp [hp]), hrest]
      simp
    · have hane : a ≠ i := fun he => (List.nodup_cons.mp hnd).1 (he ▸ hi')
      have hqa : q a = p a := hagree a (List.mem_cons_self _ _) hane
      have ihr := ih (List.nodup_cons.mp hnd).2 hi'
        (fun j hj hji => hagree j (List.mem_cons_of_mem _ hj) hji)
      by_cases hpa : p a = true
      · rw [List.filter_cons_of_pos hpa, List.filter_cons_of_pos (hqa.trans hpa)]
        simp [ihr]
      · have hpa' : p a = false := by simpa using hpa
        rw [List.filter_cons_of_neg (by simp [hqa.trans hpa']),
          List.filter_cons_of_neg (by simp [hpa'])]
        exact ihr

/-- Invariant carried while filling a fresh power-of-two table: the sizes
are correct, every occupied slot holds one of the keys inserted so far with
a nonzero value, and the number of occupied slots equals the number of keys
inserted so far. -/
def TableInv (n : Nat) (m : AtomicHashMap) (done : List Nat) : Prop :=
  m.size = 2 ^ n ∧ m.keys.length = 2 ^ n ∧ m.values.length = 2 ^ n ∧
    (∀ i, i < 2 ^ n → m.keys.getD i 0 = 0 ∨ m.keys.getD i 0 ∈ done) ∧
    (∀ i, i < 2 ^ n → m.keys.getD i 0 ≠ 0 → m.values.getD i 0 ≠ 0) ∧
    ((List.range (2 ^ n)).filter (fun i => decide (m.keys.getD i 0 ≠ 0))).length = done.length

/-- Inserting a fresh nonzero non-overflowing key with a nonzero value into
a table with room succeeds and claims exactly one empty slot. -/
lemma TableInv_insert {n : Nat} {m : AtomicHashMap} {done : List Nat} {k v : Nat}
    (hinv : TableInv n m done) (hk : k ≠ 0) (hv : v ≠ 0) (hkd : k ∉ done)
    (hno : hash_key k + 2 ^ n < U64) (hroom : done.length < 2 ^ n) :
    ∃ m', m.insert k v = some (.ok m') ∧ TableInv n m' (done ++ [k]) := by
  obtain ⟨hs, hkl, hvl, hdom, hval, hcount⟩ := hinv
  have hnok : ∀ i, i < 2 ^ n → m.keys.getD i 0 ≠ k := by
    intro i hi hik
    rcases hdom i hi with h0 | hdone
    · exact hk (hik.symm.trans h0)
    · exact hkd (hik ▸ hdone)
  have hzero : ∃ i, i < 2 ^ n ∧ m.keys.getD i 0 = 0 := by
    by_contra hno0
    push_neg at hno0
    have hall : ∀ j ∈ List.range (2 ^ n), (fun i => decide (m.keys.getD i 0 ≠ 0)) j = true := by
      intro j hj
      simp only [List.mem_range] at hj
      simpa using hno0 j hj
    rw [List.filter_eq_self.mpr hall, List.length_range] at hcount
    omega
  obtain ⟨r, hr, hcase⟩ := insert_total m k v hk
  have hnotfull : m.insert k v ≠ some (.error .Full) := by
    intro hfull
    obtain ⟨i0, hi0, h0⟩ := hzero
    exact ((insert_full_iff m k v hk hs (by rwa [hs])).mp hfull i0 (by rwa [← hs] at hi0)).2 h0
  obtain ⟨m', rfl⟩ := hcase.resolve_left (fun he => hnotfull (he ▸ hr))
  refine ⟨m', hr, ?_⟩
  obtain ⟨L1, i, L2, hL, hi, _, _, hki, hcase2, hvals, hsize2⟩ :=
    insert_ok_elim hk (hkl.trans hs.symm) hr
  have hi' : i < 2 ^ n := by rwa [hs] at hi
  have hkeys : m'.keys = m.keys.set i k := by
    rcases hcase2 with ⟨hmatch, _⟩ | ⟨_, hset⟩
    · exact absurd hmatch (hnok i hi')
    · exact hset
  have hizero : m.keys.getD i 0 = 0 := by
    rcases hcase2 with ⟨hmatch, _⟩ | ⟨hz, _⟩
    · exact absurd hmatch (hnok i hi')
    · exact hz
  have hikl : i < m.keys.length := by rw [hkl]; exact hi'
  have hivl : i < m.values.length := by rw [hvl]; exact hi'
  refine ⟨hsize2.trans hs, by rw [hkeys]; simpa using hkl, by rw [hvals]; simpa using hvl,
    ?_, ?_, ?_⟩
  · intro j hj
    by_cases hij : i = j
    · subst hij
      right
      rw [hkeys, getD_set_self hikl]
      simp
    · rw [hkeys, getD_set_ne hij]
      rcases hdom j hj with h0 | hd
      · exact Or.inl h0
      · exact Or.inr (List.mem_append_left _ hd)
  · intro j hj
    by_cases hij : i = j
    · subst hij
      rw [hvals, getD_set_self hivl]
      intro _
      exact hv
    · rw [hkeys, getD_set_ne hij, hvals, getD_set_ne hij]
      exact hval j hj
  · have hizero' : m.keys[i]?.getD 0 = 0 := by simpa using hizero
    have hset' : (m.keys.set i k)[i]?.getD 0 = k := by
      simpa using getD_set_self (a := k) (d := 0) hikl
    have hflip := filter_length_flip
      (fun j => decide (m.keys.getD j 0 ≠ 0))
      (fun j => decide (m'.keys.getD j 0 ≠ 0)) i
      (by simp [hizero'])
      (by rw [hkeys]; simp [hset', hk])
      (List.range (2 ^ n)) (List.nodup_range _) (by simpa using hi')
      (fun j _ hji => by
        show decide (m'.keys.getD j 0 ≠ 0) = decide (m.keys.getD j 0 ≠ 0)
        rw [hkeys, getD_set_ne (fun he => hji he.symm)])
    rw [hflip, hcount]
    simp


/-- Folding `insert` over fresh, pairwise-distinct, nonzero,
non-overflowing keys with nonzero values: every insert succeeds and the
invariant advances key by key. -/
lemma insertSeq_fill {n : Nat} :
    ∀ (pairs : List (Nat × Nat)) (m : AtomicHashMap) (done : List Nat),
      TableInv n m done →
      done.length + pairs.length ≤ 2 ^ n →
      (∀ p ∈ pairs, p.1 ≠ 0 ∧ p.2 ≠ 0 ∧ hash_key p.1 + 2 ^ n < U64) →
      (done ++ pairs.map Prod.fst).Nodup →
      ∃ m', insertSeq m pairs = some m' ∧ TableInv n m' (done ++ pairs.map Prod.fst) := by
  intro pairs
  induction pairs with
  | nil =>
    intro m done hinv _ _ _
    exact ⟨m, rfl, by simpa using hinv⟩
  | cons p rest ih =>
    intro m done hinv hle hprops hnd
    obtain ⟨k, v⟩ := p
    obtain ⟨hk, hv, hno⟩ := hprops (k, v) (List.mem_cons_self _ _)
    have hkd : k ∉ done := by
      intro hkdone
      exact (List.nodup_append.mp hnd).2.2 hkdone (by simp)
    have hroom : done.length < 2 ^ n := by
      simp only [List.length_cons] at hle
      omega
    obtain ⟨m1, hins, hinv1⟩ := TableInv_insert hinv hk hv hkd hno hroom
    obtain ⟨m', hseq, hinv'⟩ := ih m1 (done ++ [k]) hinv1
      (by
        have h1 : (done ++ [k]).length = done.length + 1 := by simp
        rw [h1]
        simp only [List.length_cons] at hle
        omega)
      (fun q hq => hprops q (List.mem_cons_of_mem _ hq))
      (by
        have heq : (done ++ [k]) ++ rest.map Prod.fst = done ++ (k :: rest.map Prod.fst) := by
          simp
        rw [heq]
        simpa using hnd)
    refine ⟨m', ?_, ?_⟩
    · rw [show insertSeq m ((k, v) :: rest) = insertSeq m1 rest from by simp [insertSeq, hins]]
      exact hseq
    · have heq : (done ++ [k]) ++ rest.map Prod.fst = done ++ ((k, v) :: rest).map Prod.fst := by
        simp
      rwa [heq] at hinv'

/-- The intended bulk-fill behavior behind C6, proved for keys without the
probe-range overflow: a fresh table of capacity `2 ^ n` absorbs `2 ^ n`
pairwise-distinct nonzero keys (each with `hash_key k + 2 ^ n < 2 ^ 64`)
with nonzero values — every insert succeeds, `len` then equals the
capacity, and inserting any further fresh nonzero key returns `Full`. -/
theorem fill_to_capacity {n : Nat} (pairs : List (Nat × Nat)) (m0 : AtomicHashMap)
    (hnew : AtomicHashMap.new (2 ^ n) = some m0)
    (hplen : pairs.length = 2 ^ n)
    (hnd : (pairs.map Prod.fst).Nodup)
    (hprops : ∀ p ∈ pairs, p.1 ≠ 0 ∧ p.2 ≠ 0 ∧ hash_key p.1 + 2 ^ n < U64) :
    ∃ m', insertSeq m0 pairs = some m' ∧ m'.len = 2 ^ n ∧
      ∀ knew vnew, knew ≠ 0 → knew ∉ pairs.map Prod.fst →
        m'.insert knew vnew = some (Except.error AtomicHashMapError.Full) := by
  obtain ⟨hkeys0, hvals0, hsize0, hkl0, hvl0⟩ := (new_spec (2 ^ n)).2 m0 hnew
  have hrep : ∀ (c i : Nat), (List.replicate c (0 : Nat)).getD i 0 = 0 := by
    intro c i
    rcases Nat.lt_or_ge i c with hlt | hge
    · simp [List.getD_eq_getElem?_getD, List.getElem?_replicate, hlt]
    · simp [List.getD_eq_getElem?_getD, List.getElem?_replicate, Nat.not_lt.mpr hge]
  have hgetD0 : ∀ i, m0.keys.getD i 0 = 0 := by
    intro i
    rw [hkeys0]
    exact hrep _ i
  have hinv0 : TableInv n m0 [] := by
    refine ⟨hsize0, hkl0, hvl0, fun i _ => Or.inl (hgetD0 i),
      fun i _ h => absurd (hgetD0 i) h, ?_⟩
    have hnil : (List.range (2 ^ n)).filter (fun i => decide (m0.keys.getD i 0 ≠ 0)) = [] := by
      apply List.filter_eq_nil_iff.mpr
      intro a _
      simpa using hgetD0 a
    rw [hnil]
  obtain ⟨m', hseq, hinv'⟩ := insertSeq_fill pairs m0 [] hinv0 (by simp [hplen])
    hprops (by simpa using hnd)
  rw [List.nil_append] at hinv'
  obtain ⟨hs', hkl', hvl', hdom', hval', hcount'⟩ := hinv'
  have hdlen : (pairs.map Prod.fst).length = 2 ^ n := by simp [hplen]
  have hallnz : ∀ i, i < 2 ^ n → m'.keys.getD i 0 ≠ 0 := by
    intro i hi hzero
    have hsplit := List.length_eq_length_filter_add
      (l := List.range (2 ^ n)) (fun j => decide (m'.keys.getD j 0 ≠ 0))
    have hmem : i ∈ (List.range (2 ^ n)).filter
        (fun j => !(decide (m'.keys.getD j 0 ≠ 0))) := by
      apply List.mem_filter.mpr
      refine ⟨by simpa using hi, ?_⟩
      simpa using hzero
    have hpos := List.length_pos_of_mem hmem
    rw [hcount', hdlen, List.length_range] at hsplit
    omega
  have hlenformula : m'.len = ((List.range m'.size).filter
      (fun i => decide (m'.keys.getD i 0 ≠ 0 ∧ m'.values.getD i 0 ≠ 0))).length := by
    unfold AtomicHashMap.len
    rw [lenLoop_eq]
    exact Nat.zero_add _
  have hfull : (List.range (2 ^ n)).filter
      (fun i => decide (m'.keys.getD i 0 ≠ 0 ∧ m'.values.getD i 0 ≠ 0)) =
        List.range (2 ^ n) := by
    apply List.filter_eq_self.mpr
    intro j hj
    have hj' : j < 2 ^ n := by simpa using hj
    have h1 := hallnz j hj'
    have h2 := hval' j hj' h1
    simpa using And.intro h1 h2
  refine ⟨m', hseq, ?_, ?_⟩
  · rw [hlenformula, hs', hfull, List.length_range]
  · intro knew vnew hknew hkfresh
    unfold AtomicHashMap.insert
    rw [if_neg hknew]
    have hloop : insertLoop m'.keys m'.values knew vnew (probeIndices m'.size knew) =
        .error .Full := by
      apply (insertLoop_error_iff _ _ _ _ _).mpr
      intro j hjmem
      have hj' : j < 2 ^ n := by rw [← hs']; exact mem_probeIndices_lt hjmem
      refine ⟨?_, hallnz j hj'⟩
      intro he
      rcases hdom' j hj' with h0 | hd
      · exact hknew (he.symm.trans h0)
      · exact hkfresh (he ▸ hd)
    simp [hloop]
